import Mathlib

/-!
Verification of the HCL2 `DictTransformer` (file `hcl2/transformer.py`).

Python strings are modelled as `List Char`; Python dicts (which preserve
insertion order) are modelled as association lists `List (Key × Value)`
with in-place update.  Warnings emitted through `logging.warning` are
collected in a list; fatal `RuntimeError`s are modelled with `Except`.
-/

namespace HCL2

/-- The `"` character (ASCII 34). -/
def dquote : Char := Char.ofNat 34

/-- The opening curly brace character (ASCII 123). -/
def lbrace : Char := Char.ofNat 123

/-- The closing curly brace character (ASCII 125). -/
def rbrace : Char := Char.ofNat 125

/-- Python `s.startswith(pre)` on character lists. -/
def pyStartsWith : List Char → List Char → Bool
  | _, [] => true
  | [], _ :: _ => false
  | c :: cs, p :: ps => decide (c = p) && pyStartsWith cs ps

/-- Python `s.endswith(suf)` on character lists. -/
def pyEndsWith (l suf : List Char) : Bool :=
  pyStartsWith l.reverse suf.reverse

/-- Dictionary keys (Python `str`). -/
abbrev Key := List Char

/-- The output value model: `Null | Bool | Int | String | List | Map`
(§3 of the design; floats do not occur in any verified rule). -/
inductive Value where
  | null
  | bool (b : Bool)
  | int (n : Int)
  | str (cs : List Char)
  | list (xs : List Value)
  | map (entries : List (Key × Value))

/-- A Python dict with string keys: insertion-ordered association list. -/
abbrev Dict := List (Key × Value)

/-- Python `d[k]` lookup (as an `Option`). -/
def Dict.lookupKey : Dict → Key → Option Value
  | [], _ => none
  | (k', v) :: rest, k => if k' = k then some v else Dict.lookupKey rest k

/-- Python `k in d`. -/
def Dict.containsKey (d : Dict) (k : Key) : Bool :=
  (d.lookupKey k).isSome

/-- Python `d[k] = v`: update in place if present, else append. -/
def Dict.setItem : Dict → Key → Value → Dict
  | [], k, v => [(k, v)]
  | (k', v') :: rest, k, v =>
    if k' = k then (k', v) :: rest else (k', v') :: Dict.setItem rest k v

/-- Python `d[k].append(v)` where `d[k]` is a list value. -/
def Dict.appendAt : Dict → Key → Value → Dict
  | [], _, _ => []
  | (k', v') :: rest, k, v =>
    if k' = k then
      (k', match v' with
           | Value.list xs => Value.list (xs ++ [v])
           | other => other) :: rest
    else (k', v') :: Dict.appendAt rest k v

/-- `transformer.py` line 280: `strip_quotes` core on a string. -/
def stripQuotesL (cs : List Char) : List Char :=
  if pyStartsWith cs [dquote] && pyEndsWith cs [dquote] then
    (cs.drop 1).dropLast
  else cs

/-- `DictTransformer.strip_quotes` (lines 280–285): remove one layer of
enclosing double quotes from a string value; non-strings unchanged. -/
def strip_quotes : Value → Value
  | Value.str cs => Value.str (stripQuotesL cs)
  | v => v

/-- `DictTransformer.to_string_dollar` (lines 272–278): a quoted string is
de-quoted once; any other string is wrapped in the interpolation marker;
non-strings pass through. -/
def to_string_dollar : Value → Value
  | Value.str cs =>
    if pyStartsWith cs [dquote] && pyEndsWith cs [dquote] then
      Value.str ((cs.drop 1).dropLast)
    else
      Value.str ('$' :: lbrace :: cs ++ [rbrace])
  | v => v

/-- `"\n"` string tokens, filtered by `strip_new_line_tokens`. -/
def isNewlineTok : Value → Bool
  | Value.str cs => decide (cs = ['\n'])
  | _ => false

/-- `DictTransformer.strip_new_line_tokens` (lines 265–270) on value lists. -/
def strip_new_line_tokens (args : List Value) : List Value :=
  args.filter (fun v => !(isNewlineTok v))

/-- `DictTransformer.tuple` (line 90): interpolation-wrap every element. -/
def tupleRule (args : List Value) : Value :=
  Value.list ((strip_new_line_tokens args).map to_string_dollar)

/-- `DictTransformer.attribute` (lines 140–145): de-quote the key,
interpolation-wrap the value. -/
def attributeRule (key : List Char) (value : Value) : Key × Value :=
  (if pyStartsWith key [dquote] && pyEndsWith key [dquote] then
     (key.drop 1).dropLast
   else key,
   to_string_dollar value)

/-- `DictTransformer.object_elem` (lines 93–99) for a string key. -/
def object_elem (key : List Char) (value : Value) : Key × Value :=
  (stripQuotesL key, to_string_dollar value)

/-! ## The `block` rule (lines 121–138) -/

/-- `START_LINE` metadata key (line 16). -/
def START_LINE : Key := "__start_line__".toList

/-- `END_LINE` metadata key (line 17). -/
def END_LINE : Key := "__end_line__".toList

/-- `DictTransformer.block`: take the body dict, optionally add line
metadata, then wrap it in one single-key map per label, iterating the
labels in reversed order. -/
def blockRule (withMeta : Bool) (line endLine : Int) (blockLabels : List (List Char))
    (blockBody : Dict) : Dict :=
  let result : Dict :=
    if withMeta then
      (blockBody.setItem START_LINE (Value.int line)).setItem END_LINE (Value.int endLine)
    else blockBody
  blockLabels.reverse.foldl (fun res label => [(stripQuotesL label, Value.map res)]) result

/-! ## The `body` rule (lines 161–200) -/

/-- A transformed child of a `body` node: an `Attribute` namedtuple, a
block-produced dict, or an insignificant newline/`Discard` token. -/
inductive BodyChild where
  | attr (key : Key) (value : Value)
  | block (entries : Dict)
  | newline

/-- A `logging.warning` event emitted by `body`. -/
inductive Warning where
  | attrDup (key : Key)
  | blockDup (key : Key)
deriving DecidableEq

/-- The exact message text passed to `logging.warning` (lines 184, 194). -/
def Warning.message : Warning → List Char
  | Warning.attrDup k => k ++ (" already defined in attribute, ignoring".toList)
  | Warning.blockDup k => k ++ (" already defined in block, ignoring".toList)

/-- The loop state of `body`: the `attributes` key set, the `result` dict
and the warnings emitted so far. -/
structure BodyState where
  attributes : List Key
  result : Dict
  warnings : List Warning

/-- One iteration of the inner `for key, value in arg.items()` loop
(lines 190–198). -/
def bodyBlockStep (s : BodyState) (kv : Key × Value) : BodyState :=
  if s.result.containsKey kv.1 then
    if kv.1 ∈ s.attributes then
      { s with warnings := s.warnings ++ [Warning.blockDup kv.1] }
    else
      { s with result := s.result.appendAt kv.1 kv.2 }
  else
    { s with result := s.result.setItem kv.1 (Value.list [kv.2]) }

/-- One iteration of the outer `for arg in args` loop (lines 181–198). -/
def bodyStep (s : BodyState) : BodyChild → BodyState
  | BodyChild.attr k v =>
    if s.result.containsKey k then
      { s with warnings := s.warnings ++ [Warning.attrDup k] }
    else
      { s with result := s.result.setItem k v, attributes := s.attributes ++ [k] }
  | BodyChild.block entries => entries.foldl bodyBlockStep s
  | BodyChild.newline => s

/-- `strip_new_line_tokens` applied to the children of a `body` node. -/
def stripBody (args : List BodyChild) : List BodyChild :=
  args.filter (fun c => match c with | BodyChild.newline => false | _ => true)

/-- The outer loop of `body` as a fold. -/
def processBody (s : BodyState) (cs : List BodyChild) : BodyState :=
  cs.foldl bodyStep s

/-- `DictTransformer.body` (lines 161–200): returns the result dict and
the list of warnings logged along the way. -/
def body (args : List BodyChild) : Dict × List Warning :=
  let s := processBody ⟨[], [], []⟩ (stripBody args)
  (s.result, s.warnings)

/-! ## Heredoc normalizer (lines 12–13, 209–239) -/

/-- `sys.maxsize` on a 64-bit CPython build. -/
def pyMaxsize : Nat := 2 ^ 63 - 1

/-- The character class `[a-zA-Z0-9._-]` of the heredoc delimiter pattern. -/
def isDelimChar (c : Char) : Bool :=
  c.isAlpha || c.isDigit || decide (c = '.') || decide (c = '_') || decide (c = '-')

/-- The greedy `([\s\S]*)\1` tail of `HEREDOC_PATTERN`: the prefix of `s`
that precedes the last position where `delim` occurs, or `none` when
`delim` never occurs in `s`. -/
def lastOccSplit (delim : List Char) : List Char → Option (List Char)
  | [] => if pyStartsWith [] delim then some [] else none
  | c :: rest =>
    match lastOccSplit delim rest with
    | some pre => some (c :: pre)
    | none => if pyStartsWith (c :: rest) delim then some [] else none

/-- The part of `HEREDOC_PATTERN` after `<<` (resp. after `<<-`):
`([a-zA-Z][a-zA-Z0-9._-]+)\n([\s\S]*)\1`.  Returns the delimiter
(group 1) and the captured body (group 2).  The delimiter run is maximal
(its character class excludes the mandatory `\n` that must follow, so the
regex engine cannot backtrack into a shorter delimiter). -/
def matchDelimBody (s : List Char) : Option (List Char × List Char) :=
  match s with
  | [] => none
  | c :: rest =>
    if c.isAlpha then
      if 1 ≤ (rest.takeWhile isDelimChar).length then
        match rest.dropWhile isDelimChar with
        | '\n' :: tail =>
          match lastOccSplit (c :: rest.takeWhile isDelimChar) tail with
          | some pre => some (c :: rest.takeWhile isDelimChar, pre)
          | none => none
        | _ => none
      else none
    else none

/-- `HEREDOC_PATTERN.match` (line 12). -/
def matchHeredoc (tok : List Char) : Option (List Char × List Char) :=
  match tok with
  | '<' :: '<' :: rest => matchDelimBody rest
  | _ => none

/-- `HEREDOC_TRIM_PATTERN.match` (line 13). -/
def matchHeredocTrim (tok : List Char) : Option (List Char × List Char) :=
  match tok with
  | '<' :: '<' :: '-' :: rest => matchDelimBody rest
  | _ => none

/-- Python `text.rstrip("\n\t ")`. -/
def rstripWs (l : List Char) : List Char :=
  (l.reverse.dropWhile (fun c => decide (c = '\n') || decide (c = '\t') || decide (c = ' '))).reverse

/-- Python `text.split("\n")`. -/
def splitNl : List Char → List (List Char)
  | [] => [[]]
  | c :: rest =>
    if c = '\n' then [] :: splitNl rest
    else
      match splitNl rest with
      | [] => [[c]]
      | l :: ls => (c :: l) :: ls

/-- Line 233: `len(line) - len(line.lstrip(" "))`, the count of leading
space characters (tabs are not spaces). -/
def leadingSpaces (l : List Char) : Nat :=
  (l.takeWhile (fun c => decide (c = ' '))).length

/-- Lines 231–234: fold `min` over the per-line leading-space counts,
starting from `sys.maxsize`. -/
def minSpaces (lines : List (List Char)) : Nat :=
  lines.foldl (fun m l => min m (leadingSpaces l)) pyMaxsize

/-- Python `"\n".join(lines)`. -/
def joinLines (lines : List (List Char)) : List Char :=
  List.intercalate ['\n'] lines

/-- `DictTransformer.heredoc_template` (lines 209–215). -/
def heredoc_template (tok : List Char) : Except (List Char) (List Char) :=
  match matchHeredoc tok with
  | none => Except.error ("Invalid Heredoc token: ".toList ++ tok)
  | some (_, b) => Except.ok (dquote :: rstripWs b ++ [dquote])

/-- `DictTransformer.heredoc_template_trim` (lines 217–239). -/
def heredoc_template_trim (tok : List Char) : Except (List Char) (List Char) :=
  match matchHeredocTrim tok with
  | none => Except.error ("Invalid Heredoc token: ".toList ++ tok)
  | some (_, b) =>
    Except.ok (dquote ::
      joinLines ((splitNl (rstripWs b)).map
        (fun l => l.drop (minSpaces (splitNl (rstripWs b))))) ++ [dquote])

/-! ## For-expressions (lines 244–263) -/

/-- A transformed child of an expression rule: a string, or the `Discard`
sentinel produced by separator rules. -/
inductive Tok where
  | s (cs : List Char)
  | discard

/-- `str(arg)` for an expression child. -/
def Tok.text : Tok → List Char
  | Tok.s cs => cs
  | Tok.discard => []

/-- `strip_new_line_tokens` on expression children: drop `"\n"` strings
and `Discard` sentinels. -/
def stripToks (args : List Tok) : List Tok :=
  args.filter (fun t => match t with
    | Tok.s cs => !(decide (cs = ['\n']))
    | Tok.discard => false)

/-- Python `" ".join(parts)`. -/
def joinSpace (parts : List (List Char)) : List Char :=
  List.intercalate [' '] parts

/-- `DictTransformer.for_object_expr` (lines 257–263): space-join
`args[1:-1]` and surround with braces; the f-string at line 263 writes
three braces on each side, i.e. one escaped literal brace plus the
interpolation slot, so one brace is emitted on each side. -/
def for_object_expr (args : List Tok) : List Char :=
  lbrace :: joinSpace ((((stripToks args).drop 1).dropLast).map Tok.text) ++ [rbrace]

/-- `DictTransformer.for_tuple_expr` (lines 244–247). -/
def for_tuple_expr (args : List Tok) : List Char :=
  '[' :: joinSpace ((((stripToks args).drop 1).dropLast).map Tok.text) ++ [']']

/-! ## Statement vocabulary for the `body` claims -/

/-- The values of the entries of one block dict that carry key `k`, in
order. -/
def entryValuesFor (k : Key) : List (Key × Value) → List Value
  | [] => []
  | (k', v) :: es => if k' = k then v :: entryValuesFor k es else entryValuesFor k es

/-- Does this body child establish or touch key `k`? -/
def carriesKey (k : Key) : BodyChild → Bool
  | BodyChild.attr k' _ => decide (k' = k)
  | BodyChild.block es => es.any (fun e => decide (e.1 = k))
  | BodyChild.newline => false

/-- The first child of a body that carries key `k`, if any. -/
def firstCarrier (k : Key) : List BodyChild → Option BodyChild
  | [] => none
  | c :: cs => if carriesKey k c then some c else firstCarrier k cs

/-- How many attribute children declare key `k`. -/
def attrCount (k : Key) : List BodyChild → Nat
  | [] => 0
  | BodyChild.attr k' _ :: cs => (if k' = k then 1 else 0) + attrCount k cs
  | _ :: cs => attrCount k cs

/-- All block-entry values carrying key `k`, in source order. -/
def blockValuesFor (k : Key) : List BodyChild → List Value
  | [] => []
  | BodyChild.block es :: cs => entryValuesFor k es ++ blockValuesFor k cs
  | _ :: cs => blockValuesFor k cs

/-- The number of occurrences of one warning in the warning log. -/
def wcount (w : Warning) (ws : List Warning) : Nat :=
  ws.countP (fun w' => decide (w' = w))

/-! ## Theorems -/

/-! ### Dictionary lemmas -/

/-- Setting a key makes lookup at that key return the new value. -/
theorem lookupKey_setItem_self (d : Dict) (k : Key) (v : Value) :
    (d.setItem k v).lookupKey k = some v := by
  induction d with
  | nil => simp [Dict.setItem, Dict.lookupKey]
  | cons e rest ih =>
    obtain ⟨k₁, v₁⟩ := e
    by_cases h : k₁ = k
    · simp [Dict.setItem, Dict.lookupKey, h]
    · simp [Dict.setItem, Dict.lookupKey, h, ih]

/-- Setting one key leaves lookup at a different key unchanged. -/
theorem lookupKey_setItem_ne (d : Dict) (k' k : Key) (v : Value) (h : k' ≠ k) :
    (d.setItem k' v).lookupKey k = d.lookupKey k := by
  induction d with
  | nil => simp [Dict.setItem, Dict.lookupKey, h]
  | cons e rest ih =>
    obtain ⟨k₁, v₁⟩ := e
    by_cases h1 : k₁ = k'
    · have h2 : k₁ ≠ k := fun hh => h (h1.symm.trans hh)
      simp [Dict.setItem, Dict.lookupKey, h1, h2, h]
    · by_cases h2 : k₁ = k
      · have h3 : ¬ k = k' := fun hh => h1 (h2.trans hh)
        simp [Dict.setItem, Dict.lookupKey, h1, h2, h3]
      · simp [Dict.setItem, Dict.lookupKey, h1, h2, ih]

/-- Appending at one key leaves lookup at a different key unchanged. -/
theorem lookupKey_appendAt_ne (d : Dict) (k' k : Key) (v : Value) (h : k' ≠ k) :
    (d.appendAt k' v).lookupKey k = d.lookupKey k := by
  induction d with
  | nil => simp [Dict.appendAt, Dict.lookupKey]
  | cons e rest ih =>
    obtain ⟨k₁, v₁⟩ := e
    by_cases h1 : k₁ = k'
    · have h2 : k₁ ≠ k := fun hh => h (h1.symm.trans hh)
      simp [Dict.appendAt, Dict.lookupKey, h1, h2, h]
    · by_cases h2 : k₁ = k
      · have h3 : ¬ k = k' := fun hh => h1 (h2.trans hh)
        simp [Dict.appendAt, Dict.lookupKey, h1, h2, h3]
      · simp [Dict.appendAt, Dict.lookupKey, h1, h2, ih]

/-- Appending at a key holding a list value appends to that list. -/
theorem lookupKey_appendAt_list (d : Dict) (k : Key) (xs : List Value) (v : Value)
    (h : d.lookupKey k = some (Value.list xs)) :
    (d.appendAt k v).lookupKey k = some (Value.list (xs ++ [v])) := by
  induction d with
  | nil => simp [Dict.lookupKey] at h
  | cons e rest ih =>
    obtain ⟨k₁, v₁⟩ := e
    by_cases h1 : k₁ = k
    · rw [Dict.lookupKey, if_pos h1] at h
      obtain rfl : v₁ = Value.list xs := Option.some.inj h
      simp [Dict.appendAt, Dict.lookupKey, h1]
    · rw [Dict.lookupKey, if_neg h1] at h
      simp [Dict.appendAt, Dict.lookupKey, h1, ih h]

/-! ### Warning-count lemmas -/

/-- `wcount` distributes over appending logs. -/
theorem wcount_append (w : Warning) (ws₁ ws₂ : List Warning) :
    wcount w (ws₁ ++ ws₂) = wcount w ws₁ + wcount w ws₂ :=
  List.countP_append _ _ _

/-- One matching warning counts once. -/
theorem wcount_singleton_self (w : Warning) : wcount w [w] = 1 := by
  simp [wcount]

/-- A different warning does not count. -/
theorem wcount_singleton_ne (w w' : Warning) (h : w' ≠ w) : wcount w [w'] = 0 := by
  simp [wcount, h]

/-! ### Step lemmas for the `body` loops -/

/-- An entry whose key collides with an attribute key only logs a warning. -/
theorem bodyBlockStep_hit_attr (s : BodyState) (k₁ : Key) (v₁ : Value)
    (h1 : s.result.containsKey k₁ = true) (h2 : k₁ ∈ s.attributes) :
    bodyBlockStep s (k₁, v₁) = { s with warnings := s.warnings ++ [Warning.blockDup k₁] } := by
  simp [bodyBlockStep, h1, h2]

/-- An entry whose key repeats a block key appends to its list. -/
theorem bodyBlockStep_hit_block (s : BodyState) (k₁ : Key) (v₁ : Value)
    (h1 : s.result.containsKey k₁ = true) (h2 : k₁ ∉ s.attributes) :
    bodyBlockStep s (k₁, v₁) = { s with result := s.result.appendAt k₁ v₁ } := by
  simp [bodyBlockStep, h1, h2]

/-- An entry with a fresh key starts a one-element list. -/
theorem bodyBlockStep_new (s : BodyState) (k₁ : Key) (v₁ : Value)
    (h1 : s.result.containsKey k₁ = false) :
    bodyBlockStep s (k₁, v₁) = { s with result := s.result.setItem k₁ (Value.list [v₁]) } := by
  simp [bodyBlockStep, h1]

/-- An attribute child whose key is already present only logs a warning. -/
theorem bodyStep_attr_hit (s : BodyState) (k₁ : Key) (v₁ : Value)
    (h1 : s.result.containsKey k₁ = true) :
    bodyStep s (BodyChild.attr k₁ v₁)
      = { s with warnings := s.warnings ++ [Warning.attrDup k₁] } := by
  simp [bodyStep, h1]

/-- A fresh attribute child stores its value and records its key. -/
theorem bodyStep_attr_new (s : BodyState) (k₁ : Key) (v₁ : Value)
    (h1 : s.result.containsKey k₁ = false) :
    bodyStep s (BodyChild.attr k₁ v₁)
      = { s with result := s.result.setItem k₁ v₁, attributes := s.attributes ++ [k₁] } := by
  simp [bodyStep, h1]

/-- A dict with no binding at `k` does not contain `k`. -/
theorem containsKey_eq_false (d : Dict) (k : Key) (h : d.lookupKey k = none) :
    d.containsKey k = false := by
  simp [Dict.containsKey, h]

/-- A dict with a binding at `k` contains `k`. -/
theorem containsKey_eq_true (d : Dict) (k : Key) (v : Value) (h : d.lookupKey k = some v) :
    d.containsKey k = true := by
  simp [Dict.containsKey, h]

/-! ### The inner entries loop, by ownership of the key -/

/-- Entries folded from a state where key `k` is attribute-owned: the
binding survives untouched and every entry carrying `k` logs one
block-duplicate warning. -/
theorem entries_attrOwned (k : Key) (es : List (Key × Value)) :
    ∀ (s : BodyState) (v : Value), s.result.lookupKey k = some v → k ∈ s.attributes →
    (es.foldl bodyBlockStep s).result.lookupKey k = some v ∧
    k ∈ (es.foldl bodyBlockStep s).attributes ∧
    wcount (Warning.attrDup k) (es.foldl bodyBlockStep s).warnings
      = wcount (Warning.attrDup k) s.warnings ∧
    wcount (Warning.blockDup k) (es.foldl bodyBlockStep s).warnings
      = wcount (Warning.blockDup k) s.warnings + (entryValuesFor k es).length := by
  induction es with
  | nil => intro s v h1 h2; exact ⟨h1, h2, rfl, by simp [entryValuesFor]⟩
  | cons e rest ih =>
    intro s v h1 h2
    obtain ⟨k₁, v₁⟩ := e
    by_cases hk : k₁ = k
    · subst hk
      rw [List.foldl_cons, bodyBlockStep_hit_attr s k₁ v₁ (containsKey_eq_true _ _ _ h1) h2]
      obtain ⟨a, b, c, d⟩ :=
        ih { s with warnings := s.warnings ++ [Warning.blockDup k₁] } v h1 h2
      refine ⟨a, b, ?_, ?_⟩
      · rw [c]
        show wcount (Warning.attrDup k₁) (s.warnings ++ [Warning.blockDup k₁])
            = wcount (Warning.attrDup k₁) s.warnings
        rw [wcount_append, wcount_singleton_ne _ _ (fun hh => Warning.noConfusion hh)]
        omega
      · rw [d]
        show wcount (Warning.blockDup k₁) (s.warnings ++ [Warning.blockDup k₁])
              + (entryValuesFor k₁ rest).length
            = wcount (Warning.blockDup k₁) s.warnings
              + (entryValuesFor k₁ ((k₁, v₁) :: rest)).length
        rw [wcount_append, wcount_singleton_self]
        have hv : entryValuesFor k₁ ((k₁, v₁) :: rest) = v₁ :: entryValuesFor k₁ rest := by
          simp [entryValuesFor]
        rw [hv]
        simp only [List.length_cons]
        omega
    · rw [List.foldl_cons]
      have hval : entryValuesFor k ((k₁, v₁) :: rest) = entryValuesFor k rest := by
        simp [entryValuesFor, hk]
      rcases hcont : s.result.containsKey k₁ with hval2 | hval2
      · rw [bodyBlockStep_new s k₁ v₁ hcont]
        have h1' : ({ s with result := s.result.setItem k₁ (Value.list [v₁])} :
            BodyState).result.lookupKey k = some v := by
          show (s.result.setItem k₁ (Value.list [v₁])).lookupKey k = some v
          rw [lookupKey_setItem_ne _ _ _ _ hk]; exact h1
        obtain ⟨a, b, c, d⟩ :=
          ih { s with result := s.result.setItem k₁ (Value.list [v₁]) } v h1' h2
        exact ⟨a, b, c, by rw [d, hval]⟩
      · by_cases hmem : k₁ ∈ s.attributes
        · rw [bodyBlockStep_hit_attr s k₁ v₁ hcont hmem]
          obtain ⟨a, b, c, d⟩ :=
            ih { s with warnings := s.warnings ++ [Warning.blockDup k₁] } v h1 h2
          refine ⟨a, b, ?_, ?_⟩
          · rw [c]
            show wcount (Warning.attrDup k) (s.warnings ++ [Warning.blockDup k₁])
                = wcount (Warning.attrDup k) s.warnings
            rw [wcount_append, wcount_singleton_ne _ _ (fun hh => Warning.noConfusion hh)]
            omega
          · rw [d, hval]
            show wcount (Warning.blockDup k) (s.warnings ++ [Warning.blockDup k₁])
                  + (entryValuesFor k rest).length
                = wcount (Warning.blockDup k) s.warnings + (entryValuesFor k rest).length
            rw [wcount_append, wcount_singleton_ne _ _ (by simp [hk])]
            omega
        · rw [bodyBlockStep_hit_block s k₁ v₁ hcont hmem]
          have h1' : ({ s with result := s.result.appendAt k₁ v₁ } :
              BodyState).result.lookupKey k = some v := by
            show (s.result.appendAt k₁ v₁).lookupKey k = some v
            rw [lookupKey_appendAt_ne _ _ _ _ hk]; exact h1
          obtain ⟨a, b, c, d⟩ := ih { s with result := s.result.appendAt k₁ v₁ } v h1' h2
          exact ⟨a, b, c, by rw [d, hval]⟩

/-- Entries folded from a state where key `k` is block-owned: every entry
carrying `k` appends its value to the stored list in order; no warning
about `k` is logged and the attribute set is untouched. -/
theorem entries_blockOwned (k : Key) (es : List (Key × Value)) :
    ∀ (s : BodyState) (xs : List Value),
    s.result.lookupKey k = some (Value.list xs) → k ∉ s.attributes →
    (es.foldl bodyBlockStep s).result.lookupKey k
      = some (Value.list (xs ++ entryValuesFor k es)) ∧
    (es.foldl bodyBlockStep s).attributes = s.attributes ∧
    wcount (Warning.attrDup k) (es.foldl bodyBlockStep s).warnings
      = wcount (Warning.attrDup k) s.warnings ∧
    wcount (Warning.blockDup k) (es.foldl bodyBlockStep s).warnings
      = wcount (Warning.blockDup k) s.warnings := by
  induction es with
  | nil => intro s xs h1 h2; exact ⟨by simp [entryValuesFor, h1], rfl, rfl, rfl⟩
  | cons e rest ih =>
    intro s xs h1 h2
    obtain ⟨k₁, v₁⟩ := e
    by_cases hk : k₁ = k
    · subst hk
      rw [List.foldl_cons, bodyBlockStep_hit_block s k₁ v₁ (containsKey_eq_true _ _ _ h1) h2]
      have h1' : ({ s with result := s.result.appendAt k₁ v₁ } :
          BodyState).result.lookupKey k₁ = some (Value.list (xs ++ [v₁])) := by
        show (s.result.appendAt k₁ v₁).lookupKey k₁ = some (Value.list (xs ++ [v₁]))
        exact lookupKey_appendAt_list _ _ _ _ h1
      obtain ⟨a, b, c, d⟩ :=
        ih { s with result := s.result.appendAt k₁ v₁ } (xs ++ [v₁]) h1' h2
      refine ⟨?_, b, c, d⟩
      rw [a]
      have hv : entryValuesFor k₁ ((k₁, v₁) :: rest) = v₁ :: entryValuesFor k₁ rest := by
        simp [entryValuesFor]
      rw [hv]
      simp
    · rw [List.foldl_cons]
      have hval : entryValuesFor k ((k₁, v₁) :: rest) = entryValuesFor k rest := by
        simp [entryValuesFor, hk]
      rcases hcont : s.result.containsKey k₁ with _ | _
      · rw [bodyBlockStep_new s k₁ v₁ hcont]
        have h1' : ({ s with result := s.result.setItem k₁ (Value.list [v₁]) } :
            BodyState).result.lookupKey k = some (Value.list xs) := by
          show (s.result.setItem k₁ (Value.list [v₁])).lookupKey k = some (Value.list xs)
          rw [lookupKey_setItem_ne _ _ _ _ hk]; exact h1
        obtain ⟨a, b, c, d⟩ :=
          ih { s with result := s.result.setItem k₁ (Value.list [v₁]) } xs h1' h2
        exact ⟨by rw [a, hval], b, c, d⟩
      · by_cases hmem : k₁ ∈ s.attributes
        · rw [bodyBlockStep_hit_attr s k₁ v₁ hcont hmem]
          obtain ⟨a, b, c, d⟩ :=
            ih { s with warnings := s.warnings ++ [Warning.blockDup k₁] } xs h1 h2
          refine ⟨by rw [a, hval], b, ?_, ?_⟩
          · rw [c]
            show wcount (Warning.attrDup k) (s.warnings ++ [Warning.blockDup k₁])
                = wcount (Warning.attrDup k) s.warnings
            rw [wcount_append, wcount_singleton_ne _ _ (fun hh => Warning.noConfusion hh)]
            omega
          · rw [d]
            show wcount (Warning.blockDup k) (s.warnings ++ [Warning.blockDup k₁])
                = wcount (Warning.blockDup k) s.warnings
            rw [wcount_append, wcount_singleton_ne _ _ (by simp [hk])]
            omega
        · rw [bodyBlockStep_hit_block s k₁ v₁ hcont hmem]
          have h1' : ({ s with result := s.result.appendAt k₁ v₁ } :
              BodyState).result.lookupKey k = some (Value.list xs) := by
            show (s.result.appendAt k₁ v₁).lookupKey k = some (Value.list xs)
            rw [lookupKey_appendAt_ne _ _ _ _ hk]; exact h1
          obtain ⟨a, b, c, d⟩ := ih { s with result := s.result.appendAt k₁ v₁ } xs h1' h2
          exact ⟨by rw [a, hval], b, c, d⟩

/-- Entries folded from a state where key `k` is absent: if no entry
carries `k` nothing changes at `k`; otherwise the entries carrying `k`
are collected, in order, into a fresh list value at `k`.  No warning
about `k` is logged and the attribute set is untouched. -/
theorem entries_clean (k : Key) (es : List (Key × Value)) :
    ∀ s : BodyState, s.result.lookupKey k = none → k ∉ s.attributes →
    (es.foldl bodyBlockStep s).attributes = s.attributes ∧
    wcount (Warning.attrDup k) (es.foldl bodyBlockStep s).warnings
      = wcount (Warning.attrDup k) s.warnings ∧
    wcount (Warning.blockDup k) (es.foldl bodyBlockStep s).warnings
      = wcount (Warning.blockDup k) s.warnings ∧
    (entryValuesFor k es = [] → (es.foldl bodyBlockStep s).result.lookupKey k = none) ∧
    (entryValuesFor k es ≠ [] →
      (es.foldl bodyBlockStep s).result.lookupKey k
        = some (Value.list (entryValuesFor k es))) := by
  induction es with
  | nil =>
    intro s h1 h2
    exact ⟨rfl, rfl, rfl, fun _ => h1, fun h => absurd rfl h⟩
  | cons e rest ih =>
    intro s h1 h2
    obtain ⟨k₁, v₁⟩ := e
    by_cases hk : k₁ = k
    · subst hk
      rw [List.foldl_cons, bodyBlockStep_new s k₁ v₁ (containsKey_eq_false _ _ h1)]
      have h1' : ({ s with result := s.result.setItem k₁ (Value.list [v₁]) } :
          BodyState).result.lookupKey k₁ = some (Value.list [v₁]) := by
        show (s.result.setItem k₁ (Value.list [v₁])).lookupKey k₁ = some (Value.list [v₁])
        exact lookupKey_setItem_self _ _ _
      obtain ⟨a, b, c, d⟩ := entries_blockOwned k₁ rest
        { s with result := s.result.setItem k₁ (Value.list [v₁]) } [v₁] h1' h2
      have hv : entryValuesFor k₁ ((k₁, v₁) :: rest) = v₁ :: entryValuesFor k₁ rest := by
        simp [entryValuesFor]
      refine ⟨b, c, d, fun hemp => ?_, fun _ => ?_⟩
      · rw [hv] at hemp; exact absurd hemp (List.cons_ne_nil _ _)
      · rw [a, hv]; simp
    · rw [List.foldl_cons]
      have hval : entryValuesFor k ((k₁, v₁) :: rest) = entryValuesFor k rest := by
        simp [entryValuesFor, hk]
      rcases hcont : s.result.containsKey k₁ with _ | _
      · rw [bodyBlockStep_new s k₁ v₁ hcont]
        have h1' : ({ s with result := s.result.setItem k₁ (Value.list [v₁]) } :
            BodyState).result.lookupKey k = none := by
          show (s.result.setItem k₁ (Value.list [v₁])).lookupKey k = none
          rw [lookupKey_setItem_ne _ _ _ _ hk]; exact h1
        obtain ⟨a, b, c, d, e2⟩ :=
          ih { s with result := s.result.setItem k₁ (Value.list [v₁]) } h1' h2
        exact ⟨a, b, c, by rw [hval]; exact d, by rw [hval]; exact e2⟩
      · by_cases hmem : k₁ ∈ s.attributes
        · rw [bodyBlockStep_hit_attr s k₁ v₁ hcont hmem]
          obtain ⟨a, b, c, d, e2⟩ :=
            ih { s with warnings := s.warnings ++ [Warning.blockDup k₁] } h1 h2
          refine ⟨a, ?_, ?_, by rw [hval]; exact d, by rw [hval]; exact e2⟩
          · rw [b]
            show wcount (Warning.attrDup k) (s.warnings ++ [Warning.blockDup k₁])
                = wcount (Warning.attrDup k) s.warnings
            rw [wcount_append, wcount_singleton_ne _ _ (fun hh => Warning.noConfusion hh)]
            omega
          · rw [c]
            show wcount (Warning.blockDup k) (s.warnings ++ [Warning.blockDup k₁])
                = wcount (Warning.blockDup k) s.warnings
            rw [wcount_append, wcount_singleton_ne _ _ (by simp [hk])]
            omega
        · rw [bodyBlockStep_hit_block s k₁ v₁ hcont hmem]
          have h1' : ({ s with result := s.result.appendAt k₁ v₁ } :
              BodyState).result.lookupKey k = none := by
            show (s.result.appendAt k₁ v₁).lookupKey k = none
            rw [lookupKey_appendAt_ne _ _ _ _ hk]; exact h1
          obtain ⟨a, b, c, d, e2⟩ := ih { s with result := s.result.appendAt k₁ v₁ } h1' h2
          exact ⟨a, b, c, by rw [hval]; exact d, by rw [hval]; exact e2⟩

/-! ### Counting lemmas for the statement vocabulary -/

/-- An attribute child declaring `k` adds one to the declaration count. -/
theorem attrCount_attr_self (k : Key) (v : Value) (cs : List BodyChild) :
    attrCount k (BodyChild.attr k v :: cs) = attrCount k cs + 1 := by
  simp [attrCount, Nat.add_comm]

/-- An attribute child with a different key leaves the count unchanged. -/
theorem attrCount_attr_ne (k k₂ : Key) (v : Value) (cs : List BodyChild) (hk : ¬ k₂ = k) :
    attrCount k (BodyChild.attr k₂ v :: cs) = attrCount k cs := by
  simp [attrCount, hk]

/-- A block child leaves the attribute-declaration count unchanged. -/
theorem attrCount_block (k : Key) (es : Dict) (cs : List BodyChild) :
    attrCount k (BodyChild.block es :: cs) = attrCount k cs := rfl

/-- A newline child leaves the attribute-declaration count unchanged. -/
theorem attrCount_newline (k : Key) (cs : List BodyChild) :
    attrCount k (BodyChild.newline :: cs) = attrCount k cs := rfl

/-- An attribute child contributes no block values. -/
theorem blockValuesFor_attr (k k₂ : Key) (v : Value) (cs : List BodyChild) :
    blockValuesFor k (BodyChild.attr k₂ v :: cs) = blockValuesFor k cs := rfl

/-- A block child contributes its entry values for `k` in front. -/
theorem blockValuesFor_block (k : Key) (es : Dict) (cs : List BodyChild) :
    blockValuesFor k (BodyChild.block es :: cs)
      = entryValuesFor k es ++ blockValuesFor k cs := rfl

/-- A newline child contributes no block values. -/
theorem blockValuesFor_newline (k : Key) (cs : List BodyChild) :
    blockValuesFor k (BodyChild.newline :: cs) = blockValuesFor k cs := rfl

/-- A child carrying `k` is the first carrier when it is in front. -/
theorem firstCarrier_cons_true (k : Key) (c : BodyChild) (cs : List BodyChild)
    (h : carriesKey k c = true) : firstCarrier k (c :: cs) = some c := by
  simp [firstCarrier, h]

/-- A child not carrying `k` is skipped by the first-carrier search. -/
theorem firstCarrier_cons_false (k : Key) (c : BodyChild) (cs : List BodyChild)
    (h : carriesKey k c = false) : firstCarrier k (c :: cs) = firstCarrier k cs := by
  simp [firstCarrier, h]

/-- A block none of whose entries carries `k` yields no values for `k`. -/
theorem entryValuesFor_nil_of_any_false (k : Key) (es : List (Key × Value))
    (h : es.any (fun e => decide (e.1 = k)) = false) : entryValuesFor k es = [] := by
  induction es with
  | nil => rfl
  | cons e rest ih =>
    obtain ⟨k₁, v₁⟩ := e
    rw [List.any_cons] at h
    obtain ⟨h1, h2⟩ := Bool.or_eq_false_iff.mp h
    have hk : ¬ k₁ = k := by simpa using h1
    simp [entryValuesFor, hk, ih h2]

/-- A block one of whose entries carries `k` yields some value for `k`. -/
theorem entryValuesFor_ne_nil_of_any_true (k : Key) (es : List (Key × Value))
    (h : es.any (fun e => decide (e.1 = k)) = true) : entryValuesFor k es ≠ [] := by
  induction es with
  | nil => simp at h
  | cons e rest ih =>
    obtain ⟨k₁, v₁⟩ := e
    by_cases hk : k₁ = k
    · simp [entryValuesFor, hk]
    · rw [List.any_cons] at h
      rcases Bool.or_eq_true_iff.mp h with h1 | h2
      · exact absurd (of_decide_eq_true h1) hk
      · simpa [entryValuesFor, hk] using ih h2

/-! ### The outer children loop, by ownership of the key -/

/-- Children folded from a state where key `k` is attribute-owned: the
binding survives; each attribute child declaring `k` logs one
attribute-duplicate warning and each block entry carrying `k` logs one
block-duplicate warning. -/
theorem process_attrOwned (k : Key) (cs : List BodyChild) :
    ∀ (s : BodyState) (v : Value), s.result.lookupKey k = some v → k ∈ s.attributes →
    (processBody s cs).result.lookupKey k = some v ∧
    k ∈ (processBody s cs).attributes ∧
    wcount (Warning.attrDup k) (processBody s cs).warnings
      = wcount (Warning.attrDup k) s.warnings + attrCount k cs ∧
    wcount (Warning.blockDup k) (processBody s cs).warnings
      = wcount (Warning.blockDup k) s.warnings + (blockValuesFor k cs).length := by
  induction cs with
  | nil =>
    intro s v h1 h2
    exact ⟨h1, h2, by simp [processBody, attrCount], by simp [processBody, blockValuesFor]⟩
  | cons c rest ih =>
    intro s v h1 h2
    cases c with
    | newline =>
      have hstep : processBody s (BodyChild.newline :: rest) = processBody s rest := rfl
      rw [hstep, attrCount_newline, blockValuesFor_newline]
      exact ih s v h1 h2
    | attr k₂ v₂ =>
      rw [blockValuesFor_attr]
      by_cases hk : k₂ = k
      · subst hk
        have hstep : processBody s (BodyChild.attr k₂ v₂ :: rest)
            = processBody { s with warnings := s.warnings ++ [Warning.attrDup k₂] } rest := by
          simp only [processBody, List.foldl_cons,
            bodyStep_attr_hit s k₂ v₂ (containsKey_eq_true _ _ _ h1)]
        rw [hstep, attrCount_attr_self]
        obtain ⟨a, b, c, d⟩ :=
          ih { s with warnings := s.warnings ++ [Warning.attrDup k₂] } v h1 h2
        refine ⟨a, b, ?_, ?_⟩
        · rw [c]
          show wcount (Warning.attrDup k₂) (s.warnings ++ [Warning.attrDup k₂]) + attrCount k₂ rest
              = wcount (Warning.attrDup k₂) s.warnings + (attrCount k₂ rest + 1)
          rw [wcount_append, wcount_singleton_self]
          omega
        · rw [d]
          show wcount (Warning.blockDup k₂) (s.warnings ++ [Warning.attrDup k₂])
                + (blockValuesFor k₂ rest).length
              = wcount (Warning.blockDup k₂) s.warnings + (blockValuesFor k₂ rest).length
          rw [wcount_append, wcount_singleton_ne _ _ (fun hh => Warning.noConfusion hh)]
          omega
      · rw [attrCount_attr_ne _ _ _ _ hk]
        rcases hcont : s.result.containsKey k₂ with _ | _
        · have hstep : processBody s (BodyChild.attr k₂ v₂ :: rest)
              = processBody { s with result := s.result.setItem k₂ v₂, attributes := s.attributes ++ [k₂] } rest := by
            simp only [processBody, List.foldl_cons, bodyStep_attr_new s k₂ v₂ hcont]
          rw [hstep]
          have h1' : ({ s with result := s.result.setItem k₂ v₂, attributes := s.attributes ++ [k₂] } : BodyState).result.lookupKey k = some v := by
            show (s.result.setItem k₂ v₂).lookupKey k = some v
            rw [lookupKey_setItem_ne _ _ _ _ hk]; exact h1
          have h2' : k ∈ ({ s with result := s.result.setItem k₂ v₂, attributes := s.attributes ++ [k₂] } : BodyState).attributes :=
            List.mem_append_left _ h2
          obtain ⟨a, b, c, d⟩ := ih { s with result := s.result.setItem k₂ v₂, attributes := s.attributes ++ [k₂] } v h1' h2'
          exact ⟨a, b, c, d⟩
        · have hstep : processBody s (BodyChild.attr k₂ v₂ :: rest)
              = processBody { s with warnings := s.warnings ++ [Warning.attrDup k₂] } rest := by
            simp only [processBody, List.foldl_cons, bodyStep_attr_hit s k₂ v₂ hcont]
          rw [hstep]
          obtain ⟨a, b, c, d⟩ :=
            ih { s with warnings := s.warnings ++ [Warning.attrDup k₂] } v h1 h2
          refine ⟨a, b, ?_, ?_⟩
          · rw [c]
            show wcount (Warning.attrDup k) (s.warnings ++ [Warning.attrDup k₂]) + attrCount k rest
                = wcount (Warning.attrDup k) s.warnings + attrCount k rest
            rw [wcount_append, wcount_singleton_ne _ _ (by simp [hk])]
            omega
          · rw [d]
            show wcount (Warning.blockDup k) (s.warnings ++ [Warning.attrDup k₂])
                  + (blockValuesFor k rest).length
                = wcount (Warning.blockDup k) s.warnings + (blockValuesFor k rest).length
            rw [wcount_append, wcount_singleton_ne _ _ (fun hh => Warning.noConfusion hh)]
            omega
    | block es =>
      rw [attrCount_block, blockValuesFor_block]
      have hstep : processBody s (BodyChild.block es :: rest)
          = processBody (es.foldl bodyBlockStep s) rest := rfl
      rw [hstep]
      obtain ⟨a0, b0, c0, d0⟩ := entries_attrOwned k es s v h1 h2
      obtain ⟨a, b, c, d⟩ := ih (es.foldl bodyBlockStep s) v a0 b0
      refine ⟨a, b, ?_, ?_⟩
      · rw [c, c0]
      · rw [d, d0, List.length_append]
        omega

/-- Children folded from a state where key `k` is block-owned: block
entries carrying `k` keep appending, each attribute child declaring `k`
is dropped with one attribute-duplicate warning, and `k` never enters
the attribute set. -/
theorem process_blockOwned (k : Key) (cs : List BodyChild) :
    ∀ (s : BodyState) (xs : List Value),
    s.result.lookupKey k = some (Value.list xs) → k ∉ s.attributes →
    (processBody s cs).result.lookupKey k
      = some (Value.list (xs ++ blockValuesFor k cs)) ∧
    k ∉ (processBody s cs).attributes ∧
    wcount (Warning.attrDup k) (processBody s cs).warnings
      = wcount (Warning.attrDup k) s.warnings + attrCount k cs ∧
    wcount (Warning.blockDup k) (processBody s cs).warnings
      = wcount (Warning.blockDup k) s.warnings := by
  induction cs with
  | nil =>
    intro s xs h1 h2
    exact ⟨by simp [processBody, blockValuesFor, h1], h2, by simp [processBody, attrCount], rfl⟩
  | cons c rest ih =>
    intro s xs h1 h2
    cases c with
    | newline =>
      have hstep : processBody s (BodyChild.newline :: rest) = processBody s rest := rfl
      rw [hstep, attrCount_newline, blockValuesFor_newline]
      exact ih s xs h1 h2
    | attr k₂ v₂ =>
      rw [blockValuesFor_attr]
      by_cases hk : k₂ = k
      · subst hk
        have hstep : processBody s (BodyChild.attr k₂ v₂ :: rest)
            = processBody { s with warnings := s.warnings ++ [Warning.attrDup k₂] } rest := by
          simp only [processBody, List.foldl_cons,
            bodyStep_attr_hit s k₂ v₂ (containsKey_eq_true _ _ _ h1)]
        rw [hstep, attrCount_attr_self]
        obtain ⟨a, b, c, d⟩ :=
          ih { s with warnings := s.warnings ++ [Warning.attrDup k₂] } xs h1 h2
        refine ⟨a, b, ?_, ?_⟩
        · rw [c]
          show wcount (Warning.attrDup k₂) (s.warnings ++ [Warning.attrDup k₂]) + attrCount k₂ rest
              = wcount (Warning.attrDup k₂) s.warnings + (attrCount k₂ rest + 1)
          rw [wcount_append, wcount_singleton_self]
          omega
        · rw [d]
          show wcount (Warning.blockDup k₂) (s.warnings ++ [Warning.attrDup k₂])
              = wcount (Warning.blockDup k₂) s.warnings
          rw [wcount_append, wcount_singleton_ne _ _ (fun hh => Warning.noConfusion hh)]
          omega
      · rw [attrCount_attr_ne _ _ _ _ hk]
        rcases hcont : s.result.containsKey k₂ with _ | _
        · have hstep : processBody s (BodyChild.attr k₂ v₂ :: rest)
              = processBody { s with result := s.result.setItem k₂ v₂, attributes := s.attributes ++ [k₂] } rest := by
            simp only [processBody, List.foldl_cons, bodyStep_attr_new s k₂ v₂ hcont]
          rw [hstep]
          have h1' : ({ s with result := s.result.setItem k₂ v₂, attributes := s.attributes ++ [k₂] } : BodyState).result.lookupKey k = some (Value.list xs) := by
            show (s.result.setItem k₂ v₂).lookupKey k = some (Value.list xs)
            rw [lookupKey_setItem_ne _ _ _ _ hk]; exact h1
          have h2' : k ∉ ({ s with result := s.result.setItem k₂ v₂, attributes := s.attributes ++ [k₂] } : BodyState).attributes := by
            show k ∉ s.attributes ++ [k₂]
            intro hmem
            rcases List.mem_append.mp hmem with hmem | hmem
            · exact h2 hmem
            · exact hk (List.mem_singleton.mp hmem).symm
          obtain ⟨a, b, c, d⟩ := ih { s with result := s.result.setItem k₂ v₂, attributes := s.attributes ++ [k₂] } xs h1' h2'
          exact ⟨a, b, c, d⟩
        · have hstep : processBody s (BodyChild.attr k₂ v₂ :: rest)
              = processBody { s with warnings := s.warnings ++ [Warning.attrDup k₂] } rest := by
            simp only [processBody, List.foldl_cons, bodyStep_attr_hit s k₂ v₂ hcont]
          rw [hstep]
          obtain ⟨a, b, c, d⟩ :=
            ih { s with warnings := s.warnings ++ [Warning.attrDup k₂] } xs h1 h2
          refine ⟨a, b, ?_, ?_⟩
          · rw [c]
            show wcount (Warning.attrDup k) (s.warnings ++ [Warning.attrDup k₂]) + attrCount k rest
                = wcount (Warning.attrDup k) s.warnings + attrCount k rest
            rw [wcount_append, wcount_singleton_ne _ _ (by simp [hk])]
            omega
          · rw [d]
            show wcount (Warning.blockDup k) (s.warnings ++ [Warning.attrDup k₂])
                = wcount (Warning.blockDup k) s.warnings
            rw [wcount_append, wcount_singleton_ne _ _ (fun hh => Warning.noConfusion hh)]
            omega
    | block es =>
      rw [attrCount_block, blockValuesFor_block]
      have hstep : processBody s (BodyChild.block es :: rest)
          = processBody (es.foldl bodyBlockStep s) rest := rfl
      rw [hstep]
      obtain ⟨a0, b0, c0, d0⟩ := entries_blockOwned k es s xs h1 h2
      have h2' : k ∉ (es.foldl bodyBlockStep s).attributes := by rw [b0]; exact h2
      obtain ⟨a, b, c, d⟩ := ih (es.foldl bodyBlockStep s) (xs ++ entryValuesFor k es) a0 h2'
      refine ⟨by rw [a, List.append_assoc], b, ?_, ?_⟩
      · rw [c, c0]
      · rw [d, d0]

/-- Children folded from a state where key `k` is absent, as at the start
of `body`: the first child carrying `k` decides the binding.  If it is an
attribute, its value sticks, later duplicate attribute declarations each
log one warning and every block entry carrying `k` logs one warning.  If
it is a block, the entry values carrying `k` are collected into a list
and every attribute declaring `k` logs one warning. -/
theorem process_clean (k : Key) (cs : List BodyChild) :
    ∀ s : BodyState, s.result.lookupKey k = none → k ∉ s.attributes →
    (∀ (k₃ : Key) (v₃ : Value), firstCarrier k cs = some (BodyChild.attr k₃ v₃) →
      (processBody s cs).result.lookupKey k = some v₃ ∧
      wcount (Warning.attrDup k) (processBody s cs).warnings + 1
        = wcount (Warning.attrDup k) s.warnings + attrCount k cs ∧
      wcount (Warning.blockDup k) (processBody s cs).warnings
        = wcount (Warning.blockDup k) s.warnings + (blockValuesFor k cs).length) ∧
    (∀ es₂ : Dict, firstCarrier k cs = some (BodyChild.block es₂) →
      (processBody s cs).result.lookupKey k = some (Value.list (blockValuesFor k cs)) ∧
      wcount (Warning.attrDup k) (processBody s cs).warnings
        = wcount (Warning.attrDup k) s.warnings + attrCount k cs ∧
      wcount (Warning.blockDup k) (processBody s cs).warnings
        = wcount (Warning.blockDup k) s.warnings) := by
  induction cs with
  | nil =>
    intro s h1 h2
    exact ⟨fun k₃ v₃ h => by simp [firstCarrier] at h,
           fun es₂ h => by simp [firstCarrier] at h⟩
  | cons c rest ih =>
    intro s h1 h2
    cases c with
    | newline =>
      have hcar : carriesKey k BodyChild.newline = false := rfl
      have hstep : processBody s (BodyChild.newline :: rest) = processBody s rest := rfl
      rw [firstCarrier_cons_false _ _ _ hcar, hstep, attrCount_newline, blockValuesFor_newline]
      exact ih s h1 h2
    | attr k₂ v₂ =>
      by_cases hk : k₂ = k
      · subst hk
        have hcar : carriesKey k₂ (BodyChild.attr k₂ v₂) = true := by simp [carriesKey]
        rw [firstCarrier_cons_true _ _ _ hcar, attrCount_attr_self, blockValuesFor_attr]
        have hstep : processBody s (BodyChild.attr k₂ v₂ :: rest)
            = processBody { s with result := s.result.setItem k₂ v₂, attributes := s.attributes ++ [k₂] } rest := by
          simp only [processBody, List.foldl_cons,
            bodyStep_attr_new s k₂ v₂ (containsKey_eq_false _ _ h1)]
        rw [hstep]
        have h1' : ({ s with result := s.result.setItem k₂ v₂, attributes := s.attributes ++ [k₂] } : BodyState).result.lookupKey k₂ = some v₂ := by
          show (s.result.setItem k₂ v₂).lookupKey k₂ = some v₂
          exact lookupKey_setItem_self _ _ _
        have h2' : k₂ ∈ ({ s with result := s.result.setItem k₂ v₂, attributes := s.attributes ++ [k₂] } : BodyState).attributes := by
          show k₂ ∈ s.attributes ++ [k₂]
          exact List.mem_append_right _ (List.mem_singleton.mpr rfl)
        obtain ⟨a, b, c, d⟩ := process_attrOwned k₂ rest
          { s with result := s.result.setItem k₂ v₂, attributes := s.attributes ++ [k₂] } v₂ h1' h2'
        constructor
        · intro k₃ v₃ hsome
          injection hsome with hsome2
          injection hsome2 with hk3 hv3
          subst hv3
          refine ⟨a, ?_, ?_⟩
          · rw [c]
            show wcount (Warning.attrDup k₂) s.warnings + attrCount k₂ rest + 1
                = wcount (Warning.attrDup k₂) s.warnings + (attrCount k₂ rest + 1)
            omega
          · rw [d]
        · intro es₂ hsome
          exact absurd (Option.some.inj hsome) (fun hh => BodyChild.noConfusion hh)
      · have hcar : carriesKey k (BodyChild.attr k₂ v₂) = false := by simp [carriesKey, hk]
        rw [firstCarrier_cons_false _ _ _ hcar, attrCount_attr_ne _ _ _ _ hk, blockValuesFor_attr]
        rcases hcont : s.result.containsKey k₂ with _ | _
        · have hstep : processBody s (BodyChild.attr k₂ v₂ :: rest)
              = processBody { s with result := s.result.setItem k₂ v₂, attributes := s.attributes ++ [k₂] } rest := by
            simp only [processBody, List.foldl_cons, bodyStep_attr_new s k₂ v₂ hcont]
          rw [hstep]
          have h1' : ({ s with result := s.result.setItem k₂ v₂, attributes := s.attributes ++ [k₂] } : BodyState).result.lookupKey k = none := by
            show (s.result.setItem k₂ v₂).lookupKey k = none
            rw [lookupKey_setItem_ne _ _ _ _ hk]; exact h1
          have h2' : k ∉ ({ s with result := s.result.setItem k₂ v₂, attributes := s.attributes ++ [k₂] } : BodyState).attributes := by
            show k ∉ s.attributes ++ [k₂]
            intro hmem
            rcases List.mem_append.mp hmem with hmem | hmem
            · exact h2 hmem
            · exact hk (List.mem_singleton.mp hmem).symm
          exact ih { s with result := s.result.setItem k₂ v₂, attributes := s.attributes ++ [k₂] } h1' h2'
        · have hstep : processBody s (BodyChild.attr k₂ v₂ :: rest)
              = processBody { s with warnings := s.warnings ++ [Warning.attrDup k₂] } rest := by
            simp only [processBody, List.foldl_cons, bodyStep_attr_hit s k₂ v₂ hcont]
          rw [hstep]
          obtain ⟨ha, hb⟩ := ih { s with warnings := s.warnings ++ [Warning.attrDup k₂] } h1 h2
          constructor
          · intro k₃ v₃ hsome
            obtain ⟨a, c, d⟩ := ha k₃ v₃ hsome
            refine ⟨a, ?_, ?_⟩
            · rw [c]
              show wcount (Warning.attrDup k) (s.warnings ++ [Warning.attrDup k₂]) + attrCount k rest
                  = wcount (Warning.attrDup k) s.warnings + attrCount k rest
              rw [wcount_append, wcount_singleton_ne _ _ (by simp [hk])]
              omega
            · rw [d]
              show wcount (Warning.blockDup k) (s.warnings ++ [Warning.attrDup k₂])
                    + (blockValuesFor k rest).length
                  = wcount (Warning.blockDup k) s.warnings + (blockValuesFor k rest).length
              rw [wcount_append, wcount_singleton_ne _ _ (fun hh => Warning.noConfusion hh)]
              omega
          · intro es₂ hsome
            obtain ⟨a, c, d⟩ := hb es₂ hsome
            refine ⟨a, ?_, ?_⟩
            · rw [c]
              show wcount (Warning.attrDup k) (s.warnings ++ [Warning.attrDup k₂]) + attrCount k rest
                  = wcount (Warning.attrDup k) s.warnings + attrCount k rest
              rw [wcount_append, wcount_singleton_ne _ _ (by simp [hk])]
              omega
            · rw [d]
              show wcount (Warning.blockDup k) (s.warnings ++ [Warning.attrDup k₂])
                  = wcount (Warning.blockDup k) s.warnings
              rw [wcount_append, wcount_singleton_ne _ _ (fun hh => Warning.noConfusion hh)]
              omega
    | block es =>
      have hstep : processBody s (BodyChild.block es :: rest)
          = processBody (es.foldl bodyBlockStep s) rest := rfl
      rcases hany : es.any (fun e => decide (e.1 = k)) with _ | _
      · have hcar : carriesKey k (BodyChild.block es) = false := hany
        rw [firstCarrier_cons_false _ _ _ hcar, hstep, attrCount_block, blockValuesFor_block]
        have hnil := entryValuesFor_nil_of_any_false k es hany
        rw [hnil, List.nil_append]
        obtain ⟨a0, b0, c0, hd0, _⟩ := entries_clean k es s h1 h2
        have h2' : k ∉ (es.foldl bodyBlockStep s).attributes := by rw [a0]; exact h2
        obtain ⟨ha, hb⟩ := ih (es.foldl bodyBlockStep s) (hd0 hnil) h2'
        constructor
        · intro k₃ v₃ hsome
          obtain ⟨a, c, d⟩ := ha k₃ v₃ hsome
          exact ⟨a, by rw [c, b0], by rw [d, c0]⟩
        · intro es₂ hsome
          obtain ⟨a, c, d⟩ := hb es₂ hsome
          exact ⟨a, by rw [c, b0], by rw [d, c0]⟩
      · have hcar : carriesKey k (BodyChild.block es) = true := hany
        rw [firstCarrier_cons_true _ _ _ hcar, hstep, attrCount_block, blockValuesFor_block]
        obtain ⟨a0, b0, c0, _, hsome0⟩ := entries_clean k es s h1 h2
        have hne := entryValuesFor_ne_nil_of_any_true k es hany
        have h2' : k ∉ (es.foldl bodyBlockStep s).attributes := by rw [a0]; exact h2
        obtain ⟨a, b, c, d⟩ := process_blockOwned k rest (es.foldl bodyBlockStep s)
          (entryValuesFor k es) (hsome0 hne) h2'
        constructor
        · intro k₃ v₃ hsome
          exact absurd (Option.some.inj hsome) (fun hh => BodyChild.noConfusion hh)
        · intro es₂ hsome
          exact ⟨a, by rw [c, b0], by rw [d, c0]⟩

/-! ### Newline stripping does not disturb the statement vocabulary -/

/-- Stripping keeps attribute children. -/
theorem stripBody_cons_attr (k₂ : Key) (v₂ : Value) (rest : List BodyChild) :
    stripBody (BodyChild.attr k₂ v₂ :: rest) = BodyChild.attr k₂ v₂ :: stripBody rest := rfl

/-- Stripping keeps block children. -/
theorem stripBody_cons_block (es : Dict) (rest : List BodyChild) :
    stripBody (BodyChild.block es :: rest) = BodyChild.block es :: stripBody rest := rfl

/-- Stripping drops newline children. -/
theorem stripBody_cons_newline (rest : List BodyChild) :
    stripBody (BodyChild.newline :: rest) = stripBody rest := rfl

/-- The first carrier of a key is insensitive to newline stripping. -/
theorem firstCarrier_stripBody (k : Key) (cs : List BodyChild) :
    firstCarrier k (stripBody cs) = firstCarrier k cs := by
  induction cs with
  | nil => rfl
  | cons c rest ih =>
    cases c with
    | newline =>
      rw [stripBody_cons_newline, ih,
        firstCarrier_cons_false k BodyChild.newline rest rfl]
    | attr k₂ v₂ =>
      rw [stripBody_cons_attr]
      rcases hcar : carriesKey k (BodyChild.attr k₂ v₂) with _ | _
      · rw [firstCarrier_cons_false _ _ _ hcar, firstCarrier_cons_false _ _ _ hcar, ih]
      · rw [firstCarrier_cons_true _ _ _ hcar, firstCarrier_cons_true _ _ _ hcar]
    | block es =>
      rw [stripBody_cons_block]
      rcases hcar : carriesKey k (BodyChild.block es) with _ | _
      · rw [firstCarrier_cons_false _ _ _ hcar, firstCarrier_cons_false _ _ _ hcar, ih]
      · rw [firstCarrier_cons_true _ _ _ hcar, firstCarrier_cons_true _ _ _ hcar]

/-- The attribute-declaration count is insensitive to newline stripping. -/
theorem attrCount_stripBody (k : Key) (cs : List BodyChild) :
    attrCount k (stripBody cs) = attrCount k cs := by
  induction cs with
  | nil => rfl
  | cons c rest ih =>
    cases c with
    | newline => rw [stripBody_cons_newline, ih, attrCount_newline]
    | attr k₂ v₂ =>
      rw [stripBody_cons_attr]
      by_cases hk : k₂ = k
      · subst hk; rw [attrCount_attr_self, attrCount_attr_self, ih]
      · rw [attrCount_attr_ne _ _ _ _ hk, attrCount_attr_ne _ _ _ _ hk, ih]
    | block es => rw [stripBody_cons_block, attrCount_block, attrCount_block, ih]

/-- The collected block values are insensitive to newline stripping. -/
theorem blockValuesFor_stripBody (k : Key) (cs : List BodyChild) :
    blockValuesFor k (stripBody cs) = blockValuesFor k cs := by
  induction cs with
  | nil => rfl
  | cons c rest ih =>
    cases c with
    | newline => rw [stripBody_cons_newline, ih, blockValuesFor_newline]
    | attr k₂ v₂ => rw [stripBody_cons_attr, blockValuesFor_attr, blockValuesFor_attr, ih]
    | block es =>
      rw [stripBody_cons_block, blockValuesFor_block, blockValuesFor_block, ih]

/-! ### The claims about `body` -/

/-- C1: within one body, when the first child carrying a key is a block,
the values of all block entries with that key are collected, in source
order, into a single list stored at that key: a key first introduced by a
block maps to a one-element list and each later block with the same key
appends its value. -/
theorem body_collects_blocks_into_list (cs : List BodyChild) (k : Key) (es : Dict)
    (h : firstCarrier k cs = some (BodyChild.block es)) :
    (body cs).1.lookupKey k = some (Value.list (blockValuesFor k cs)) := by
  have h' : firstCarrier k (stripBody cs) = some (BodyChild.block es) := by
    rw [firstCarrier_stripBody]; exact h
  have hp := ((process_clean k (stripBody cs) ⟨[], [], []⟩ rfl (List.not_mem_nil k)).2 es h').1
  rw [blockValuesFor_stripBody] at hp
  exact hp

/-- C1 witness: two sibling blocks of type `t` collect into a two-element
list, in source order, despite an unrelated attribute between them. -/
theorem body_collects_blocks_into_list_witness :
    firstCarrier ("t".toList)
        [BodyChild.block [("t".toList, Value.int 1)],
         BodyChild.attr ("a".toList) (Value.int 0),
         BodyChild.block [("t".toList, Value.int 2)]]
      = some (BodyChild.block [("t".toList, Value.int 1)]) ∧
    (body [BodyChild.block [("t".toList, Value.int 1)],
         BodyChild.attr ("a".toList) (Value.int 0),
         BodyChild.block [("t".toList, Value.int 2)]]).1.lookupKey ("t".toList)
      = some (Value.list (blockValuesFor ("t".toList)
          [BodyChild.block [("t".toList, Value.int 1)],
           BodyChild.attr ("a".toList) (Value.int 0),
           BodyChild.block [("t".toList, Value.int 2)]])) ∧
    blockValuesFor ("t".toList)
        [BodyChild.block [("t".toList, Value.int 1)],
         BodyChild.attr ("a".toList) (Value.int 0),
         BodyChild.block [("t".toList, Value.int 2)]]
      = [Value.int 1, Value.int 2] :=
  ⟨rfl, body_collects_blocks_into_list _ _ _ rfl, rfl⟩

/-- C2 counterexample: with a block child carrying key `a` placed before
the attribute `a = 2`, the attribute is dropped with a warning: the
output maps `a` to the block list `[1]`, not to the attribute value `2`,
so attribute keys are not independent of same-key blocks placed earlier. -/
theorem body_attr_after_block_dropped_cex :
    (body [BodyChild.block [("a".toList, Value.int 1)],
        BodyChild.attr ("a".toList) (Value.int 2)]).1.lookupKey ("a".toList)
      = some (Value.list [Value.int 1]) ∧
    (body [BodyChild.block [("a".toList, Value.int 1)],
        BodyChild.attr ("a".toList) (Value.int 2)]).1.lookupKey ("a".toList)
      ≠ some (Value.int 2) ∧
    wcount (Warning.attrDup ("a".toList))
        (body [BodyChild.block [("a".toList, Value.int 1)],
          BodyChild.attr ("a".toList) (Value.int 2)]).2 = 1 := by
  refine ⟨rfl, ?_, rfl⟩
  intro h
  have h2 : some (Value.list [Value.int 1]) = some (Value.int 2) := h
  exact Value.noConfusion (Option.some.inj h2)

/-- C2 amended: a body's output map binds an attribute key to the
corresponding attribute value regardless of which block children appear,
provided no block child carrying that key appears before the attribute,
i.e. the attribute is the first child carrying its key; an earlier
same-key block makes the attribute be dropped with a warning instead. -/
theorem body_distinct_attr_keys_amended (cs : List BodyChild) (k : Key) (v : Value)
    (h : firstCarrier k cs = some (BodyChild.attr k v)) :
    (body cs).1.lookupKey k = some v := by
  have h' : firstCarrier k (stripBody cs) = some (BodyChild.attr k v) := by
    rw [firstCarrier_stripBody]; exact h
  exact ((process_clean k (stripBody cs) ⟨[], [], []⟩ rfl (List.not_mem_nil k)).1 k v h').1

/-- C2 amended witness: the attribute keeps its value when it comes first,
even with a later block carrying the same key. -/
theorem body_distinct_attr_keys_amended_witness :
    firstCarrier ("a".toList)
        [BodyChild.attr ("a".toList) (Value.int 5),
         BodyChild.block [("a".toList, Value.int 9)]]
      = some (BodyChild.attr ("a".toList) (Value.int 5)) ∧
    (body [BodyChild.attr ("a".toList) (Value.int 5),
        BodyChild.block [("a".toList, Value.int 9)]]).1.lookupKey ("a".toList)
      = some (Value.int 5) :=
  ⟨rfl, body_distinct_attr_keys_amended
    [BodyChild.attr ("a".toList) (Value.int 5), BodyChild.block [("a".toList, Value.int 9)]]
    ("a".toList) (Value.int 5) rfl⟩

/-- C3: when the same attribute key is declared more than once in a body
(and the key is first established by an attribute), the output binds the
key to the first declaration's value, every later declaration is dropped,
and exactly one attribute-duplicate warning naming the key is emitted per
extra declaration; the transformation always completes with a full map. -/
theorem body_duplicate_attr_first_wins (cs : List BodyChild) (k : Key) (v : Value)
    (h : firstCarrier k cs = some (BodyChild.attr k v)) (hdup : 2 ≤ attrCount k cs) :
    (body cs).1.lookupKey k = some v ∧
    wcount (Warning.attrDup k) (body cs).2 = attrCount k cs - 1 := by
  have h' : firstCarrier k (stripBody cs) = some (BodyChild.attr k v) := by
    rw [firstCarrier_stripBody]; exact h
  obtain ⟨a, c, d⟩ :=
    (process_clean k (stripBody cs) ⟨[], [], []⟩ rfl (List.not_mem_nil k)).1 k v h'
  rw [attrCount_stripBody] at c
  have c0 : wcount (Warning.attrDup k) (body cs).2 + 1 = 0 + attrCount k cs := c
  exact ⟨a, by omega⟩

/-- C3 witness: with `a = 1`, `a = 2`, `a = 3` in one body, the output is
`a = 1` and exactly two warnings naming `a` are emitted. -/
theorem body_duplicate_attr_first_wins_witness :
    firstCarrier ("a".toList)
        [BodyChild.attr ("a".toList) (Value.int 1), BodyChild.attr ("a".toList) (Value.int 2),
         BodyChild.attr ("a".toList) (Value.int 3)]
      = some (BodyChild.attr ("a".toList) (Value.int 1)) ∧
    2 ≤ attrCount ("a".toList)
        [BodyChild.attr ("a".toList) (Value.int 1), BodyChild.attr ("a".toList) (Value.int 2),
         BodyChild.attr ("a".toList) (Value.int 3)] ∧
    (body [BodyChild.attr ("a".toList) (Value.int 1), BodyChild.attr ("a".toList) (Value.int 2),
        BodyChild.attr ("a".toList) (Value.int 3)]).1.lookupKey ("a".toList)
      = some (Value.int 1) ∧
    wcount (Warning.attrDup ("a".toList))
        (body [BodyChild.attr ("a".toList) (Value.int 1),
          BodyChild.attr ("a".toList) (Value.int 2),
          BodyChild.attr ("a".toList) (Value.int 3)]).2
      = attrCount ("a".toList)
          [BodyChild.attr ("a".toList) (Value.int 1), BodyChild.attr ("a".toList) (Value.int 2),
           BodyChild.attr ("a".toList) (Value.int 3)] - 1 := by
  refine ⟨rfl, by decide, ?_, ?_⟩
  · exact (body_duplicate_attr_first_wins
      [BodyChild.attr ("a".toList) (Value.int 1), BodyChild.attr ("a".toList) (Value.int 2),
       BodyChild.attr ("a".toList) (Value.int 3)] ("a".toList) (Value.int 1)
      rfl (by decide)).1
  · exact (body_duplicate_attr_first_wins
      [BodyChild.attr ("a".toList) (Value.int 1), BodyChild.attr ("a".toList) (Value.int 2),
       BodyChild.attr ("a".toList) (Value.int 3)] ("a".toList) (Value.int 1)
      rfl (by decide)).2

/-- C4: an attribute key and a block key are mutually exclusive within a
body: whichever kind first established the key wins, each later child of
the other kind carrying the key is dropped with a warning, and the final
value never mixes the kinds — an attribute-first key holds the plain
attribute value, a block-first key holds exactly the list of block
values. -/
theorem body_attr_block_mutually_exclusive (cs : List BodyChild) (k : Key) :
    (∀ v : Value, firstCarrier k cs = some (BodyChild.attr k v) →
      (body cs).1.lookupKey k = some v ∧
      wcount (Warning.blockDup k) (body cs).2 = (blockValuesFor k cs).length) ∧
    (∀ es : Dict, firstCarrier k cs = some (BodyChild.block es) →
      (body cs).1.lookupKey k = some (Value.list (blockValuesFor k cs)) ∧
      wcount (Warning.attrDup k) (body cs).2 = attrCount k cs) := by
  constructor
  · intro v h
    have h' : firstCarrier k (stripBody cs) = some (BodyChild.attr k v) := by
      rw [firstCarrier_stripBody]; exact h
    obtain ⟨a, c, d⟩ :=
      (process_clean k (stripBody cs) ⟨[], [], []⟩ rfl (List.not_mem_nil k)).1 k v h'
    rw [blockValuesFor_stripBody] at d
    have d0 : wcount (Warning.blockDup k) (body cs).2
        = 0 + (blockValuesFor k cs).length := d
    exact ⟨a, by omega⟩
  · intro es h
    have h' : firstCarrier k (stripBody cs) = some (BodyChild.block es) := by
      rw [firstCarrier_stripBody]; exact h
    obtain ⟨a, c, d⟩ :=
      (process_clean k (stripBody cs) ⟨[], [], []⟩ rfl (List.not_mem_nil k)).2 es h'
    rw [blockValuesFor_stripBody] at a
    rw [attrCount_stripBody] at c
    have c0 : wcount (Warning.attrDup k) (body cs).2 = 0 + attrCount k cs := c
    exact ⟨a, by omega⟩

/-- C4 witness: attribute-first keeps the attribute value and logs one
warning for the colliding block entry; block-first keeps the block list
and logs one warning for the colliding attribute. -/
theorem body_attr_block_mutually_exclusive_witness :
    firstCarrier ("a".toList)
        [BodyChild.attr ("a".toList) (Value.int 5),
         BodyChild.block [("a".toList, Value.int 9)]]
      = some (BodyChild.attr ("a".toList) (Value.int 5)) ∧
    ((body [BodyChild.attr ("a".toList) (Value.int 5),
        BodyChild.block [("a".toList, Value.int 9)]]).1.lookupKey ("a".toList)
        = some (Value.int 5) ∧
      wcount (Warning.blockDup ("a".toList))
          (body [BodyChild.attr ("a".toList) (Value.int 5),
            BodyChild.block [("a".toList, Value.int 9)]]).2
        = (blockValuesFor ("a".toList)
            [BodyChild.attr ("a".toList) (Value.int 5),
             BodyChild.block [("a".toList, Value.int 9)]]).length) ∧
    firstCarrier ("b".toList)
        [BodyChild.block [("b".toList, Value.int 1)],
         BodyChild.attr ("b".toList) (Value.int 7)]
      = some (BodyChild.block [("b".toList, Value.int 1)]) ∧
    ((body [BodyChild.block [("b".toList, Value.int 1)],
        BodyChild.attr ("b".toList) (Value.int 7)]).1.lookupKey ("b".toList)
        = some (Value.list (blockValuesFor ("b".toList)
            [BodyChild.block [("b".toList, Value.int 1)],
             BodyChild.attr ("b".toList) (Value.int 7)])) ∧
      wcount (Warning.attrDup ("b".toList))
          (body [BodyChild.block [("b".toList, Value.int 1)],
            BodyChild.attr ("b".toList) (Value.int 7)]).2
        = attrCount ("b".toList)
            [BodyChild.block [("b".toList, Value.int 1)],
             BodyChild.attr ("b".toList) (Value.int 7)]) :=
  ⟨rfl,
   (body_attr_block_mutually_exclusive
     [BodyChild.attr ("a".toList) (Value.int 5),
      BodyChild.block [("a".toList, Value.int 9)]] ("a".toList)).1 (Value.int 5) rfl,
   rfl,
   (body_attr_block_mutually_exclusive
     [BodyChild.block [("b".toList, Value.int 1)],
      BodyChild.attr ("b".toList) (Value.int 7)] ("b".toList)).2
     [("b".toList, Value.int 1)] rfl⟩

/-- Peeling one label off the front of the label list wraps the rest of
the block in one single-key map. -/
theorem blockRule_cons (wm : Bool) (line endLine : Int) (l : List Char)
    (ls : List (List Char)) (b : Dict) :
    blockRule wm line endLine (l :: ls) b
      = [(stripQuotesL l, Value.map (blockRule wm line endLine ls b))] := by
  simp [blockRule, List.reverse_cons, List.foldl_append]

/-- C5: a block with N label children followed by a body returns the body
map wrapped in N nested single-key maps, outermost label first, each
label de-quoted if it was a quoted string; e.g. labels `[a, b]` around
body `{x: 1}` yield `{a: {b: {x: 1}}}`. -/
theorem block_nested_label_maps :
    (∀ (wm : Bool) (line endLine : Int) (l : List Char) (ls : List (List Char)) (b : Dict),
      blockRule wm line endLine (l :: ls) b
        = [(stripQuotesL l, Value.map (blockRule wm line endLine ls b))]) ∧
    (∀ (line endLine : Int) (b : Dict), blockRule false line endLine [] b = b) ∧
    blockRule false 0 0 ["a".toList, "b".toList] [("x".toList, Value.int 1)]
      = [("a".toList, Value.map [("b".toList, Value.map [("x".toList, Value.int 1)])])] ∧
    (∀ b : Dict, blockRule false 0 0 ["\"lbl\"".toList] b = [("lbl".toList, Value.map b)]) :=
  ⟨blockRule_cons, fun _ _ _ => rfl, rfl, fun _ => rfl⟩

/-- C6: `to_string_dollar` strips exactly one layer of quotes from a
string that starts and ends with a double quote, wraps any other string
as the interpolation `${...}`, and passes non-strings through unchanged;
it is the wrapper applied at the attribute-value, object-value and
tuple-element sites. -/
theorem to_string_dollar_spec : ∀ (cs : List Char) (v : Value),
    ((pyStartsWith cs [dquote] && pyEndsWith cs [dquote]) = true →
      to_string_dollar (Value.str cs) = Value.str ((cs.drop 1).dropLast)) ∧
    ((pyStartsWith cs [dquote] && pyEndsWith cs [dquote]) = false →
      to_string_dollar (Value.str cs) = Value.str ('$' :: lbrace :: cs ++ [rbrace])) ∧
    ((∀ t, v ≠ Value.str t) → to_string_dollar v = v) ∧
    (attributeRule cs v).2 = to_string_dollar v ∧
    (object_elem cs v).2 = to_string_dollar v ∧
    (isNewlineTok v = false → tupleRule [v] = Value.list [to_string_dollar v]) := by
  intro cs v
  refine ⟨fun h => ?_, fun h => ?_, fun h => ?_, rfl, rfl, fun h => ?_⟩
  · simp [to_string_dollar, h]
  · simp [to_string_dollar, h]
  · cases v with
    | str t => exact absurd rfl (h t)
    | _ => rfl
  · simp [tupleRule, strip_new_line_tokens, List.filter, h]

/-- C6 witness: the three behaviors at concrete inputs: the quoted
literal `"abc"` de-quotes to `abc`, the bare expression `foo.bar` wraps
to `${foo.bar}`, and the integer `3` passes through. -/
theorem to_string_dollar_spec_witness :
    ((pyStartsWith ("\"abc\"".toList) [dquote] && pyEndsWith ("\"abc\"".toList) [dquote]) = true ∧
      to_string_dollar (Value.str ("\"abc\"".toList)) = Value.str ("abc".toList)) ∧
    ((pyStartsWith ("foo.bar".toList) [dquote] && pyEndsWith ("foo.bar".toList) [dquote]) = false ∧
      to_string_dollar (Value.str ("foo.bar".toList))
        = Value.str ('$' :: lbrace :: "foo.bar".toList ++ [rbrace])) ∧
    (isNewlineTok (Value.int 3) = false ∧
      to_string_dollar (Value.int 3) = Value.int 3 ∧
      tupleRule [Value.int 3] = Value.list [to_string_dollar (Value.int 3)]) := by
  refine ⟨⟨by decide, ?_⟩, ⟨by decide, ?_⟩, by decide, ?_, ?_⟩
  · exact (to_string_dollar_spec ("\"abc\"".toList) Value.null).1 (by decide)
  · exact (to_string_dollar_spec ("foo.bar".toList) Value.null).2.1 (by decide)
  · exact (to_string_dollar_spec [] (Value.int 3)).2.2.1 (fun t h => Value.noConfusion h)
  · exact (to_string_dollar_spec [] (Value.int 3)).2.2.2.2.2 (by decide)

/-- C8 counterexample: on a concrete `for_object_expr` node the
reconstructed text is surrounded by SINGLE braces, not doubled ones —
the doubled braces in the f-string at line 263 are escapes that emit one
literal brace each. -/
theorem for_object_expr_single_brace_cex :
    for_object_expr [Tok.s ("\x7b".toList), Tok.s ("for k in x".toList),
        Tok.s ("k => v".toList), Tok.s ("\x7d".toList)]
      = ("\x7bfor k in x k => v\x7d".toList) ∧
    (for_object_expr [Tok.s ("\x7b".toList), Tok.s ("for k in x".toList),
        Tok.s ("k => v".toList), Tok.s ("\x7d".toList)]).take 2 ≠ "\x7b\x7b".toList ∧
    ((for_object_expr [Tok.s ("\x7b".toList), Tok.s ("for k in x".toList),
        Tok.s ("k => v".toList), Tok.s ("\x7d".toList)]).reverse.take 2 ≠ "\x7d\x7d".toList) :=
  ⟨by decide, by decide, by decide⟩

/-- C8 amended: for every `for_object_expr` node, the reconstructed text
is the space-joined inner (post-filter, first-and-last-child-excluded)
children enclosed in a SINGLE pair of braces: the output begins with one
opening brace and ends with one closing brace. -/
theorem for_object_expr_braces_amended (args : List Tok) :
    for_object_expr args
      = lbrace :: joinSpace ((((stripToks args).drop 1).dropLast).map Tok.text) ++ [rbrace] ∧
    (for_object_expr args).head? = some lbrace ∧
    (for_object_expr args).getLast? = some rbrace := by
  exact ⟨rfl, rfl, List.getLast?_concat _⟩

/-- A `min`-fold over naturals is below its initial value. -/
theorem foldl_min_le_init (l : List Nat) : ∀ a : Nat, l.foldl min a ≤ a := by
  induction l with
  | nil => intro a; exact le_refl a
  | cons x l ih => intro a; exact le_trans (ih (min a x)) (min_le_left a x)

/-- A `min`-fold over naturals is below every list element. -/
theorem foldl_min_le_mem (l : List Nat) : ∀ (a x : Nat), x ∈ l → l.foldl min a ≤ x := by
  induction l with
  | nil => intro a x hx; exact absurd hx (List.not_mem_nil x)
  | cons c l ih =>
    intro a x hx
    rcases List.mem_cons.mp hx with h | h
    · subst h; exact le_trans (foldl_min_le_init l (min a x)) (min_le_right a x)
    · exact ih (min a c) x h

/-- A `min`-fold over naturals is the initial value or a list element. -/
theorem foldl_min_eq_init_or_mem (l : List Nat) :
    ∀ a : Nat, l.foldl min a = a ∨ l.foldl min a ∈ l := by
  induction l with
  | nil => intro a; exact Or.inl rfl
  | cons c l ih =>
    intro a
    rcases ih (min a c) with h | h
    · rcases Nat.le_total a c with hac | hca
      · exact Or.inl (by rw [List.foldl_cons, h, Nat.min_eq_left hac])
      · refine Or.inr ?_
        rw [List.foldl_cons, h, Nat.min_eq_right hca]
        exact List.mem_cons_self c l
    · exact Or.inr (List.mem_cons_of_mem c h)

/-- `minSpaces` is a `min`-fold over the per-line leading-space counts. -/
theorem minSpaces_eq_foldl_map (lines : List (List Char)) :
    minSpaces lines = (lines.map leadingSpaces).foldl min pyMaxsize := by
  rw [minSpaces, List.foldl_map]

/-- Splitting on newlines always yields at least one line. -/
theorem splitNl_ne_nil (l : List Char) : splitNl l ≠ [] := by
  cases l with
  | nil => simp [splitNl]
  | cons c rest =>
    simp only [splitNl]
    split
    · simp
    · split <;> simp

/-- C7: for every dedenting heredoc token the trim rule strips trailing
whitespace from the captured body, splits it into lines, computes the
minimum leading-space count over all lines (tabs never count as spaces),
drops exactly that many characters from every line, and rejoins with
newlines; e.g. the two-space-indented body becomes `hello\nworld`. -/
theorem heredoc_trim_dedent_spec :
    ∀ (tok delim b : List Char), matchHeredocTrim tok = some (delim, b) →
    (∀ l ∈ splitNl (rstripWs b), leadingSpaces l < pyMaxsize) →
    (∀ l ∈ splitNl (rstripWs b), minSpaces (splitNl (rstripWs b)) ≤ leadingSpaces l) ∧
    (∃ l ∈ splitNl (rstripWs b), minSpaces (splitNl (rstripWs b)) = leadingSpaces l) ∧
    heredoc_template_trim tok
      = Except.ok (dquote :: joinLines ((splitNl (rstripWs b)).map
          (fun l => l.drop (minSpaces (splitNl (rstripWs b))))) ++ [dquote]) ∧
    (∀ l : List Char, leadingSpaces ('\t' :: l) = 0) ∧
    heredoc_template_trim ("<<-EOF\n  hello\n  world\nEOF".toList)
      = Except.ok ("\"hello\nworld\"".toList) := by
  intro tok delim b hmatch hbound
  have hle : ∀ l ∈ splitNl (rstripWs b),
      minSpaces (splitNl (rstripWs b)) ≤ leadingSpaces l := by
    intro l hl
    rw [minSpaces_eq_foldl_map]
    exact foldl_min_le_mem _ _ _ (List.mem_map_of_mem leadingSpaces hl)
  refine ⟨hle, ?_, ?_, ?_, rfl⟩
  · rcases foldl_min_eq_init_or_mem ((splitNl (rstripWs b)).map leadingSpaces) pyMaxsize
        with h | h
    · exfalso
      rcases List.exists_mem_of_ne_nil _ (splitNl_ne_nil (rstripWs b)) with ⟨l0, hl0⟩
      have h1 := hle l0 hl0
      have h2 := hbound l0 hl0
      rw [minSpaces_eq_foldl_map, h] at h1
      exact absurd (lt_of_le_of_lt h1 h2) (lt_irrefl _)
    · rcases List.mem_map.mp h with ⟨l0, hl0, hval⟩
      exact ⟨l0, hl0, by rw [minSpaces_eq_foldl_map, hval]⟩
  · simp only [heredoc_template_trim, hmatch]
  · intro l
    have ht : (fun c => decide (c = ' ')) '\t' = false := by decide
    simp [leadingSpaces, List.takeWhile_cons, ht]

/-- C7 witness: the spec's two-space example, with both hypotheses
discharged at the concrete token. -/
theorem heredoc_trim_dedent_spec_witness :
    matchHeredocTrim ("<<-EOF\n  hello\n  world\nEOF".toList)
      = some ("EOF".toList, "  hello\n  world\n".toList) ∧
    (∀ l ∈ splitNl (rstripWs ("  hello\n  world\n".toList)),
      leadingSpaces l < pyMaxsize) ∧
    heredoc_template_trim ("<<-EOF\n  hello\n  world\nEOF".toList)
      = Except.ok ("\"hello\nworld\"".toList) := by
  refine ⟨by rfl, by decide, ?_⟩
  exact (heredoc_trim_dedent_spec ("<<-EOF\n  hello\n  world\nEOF".toList)
    ("EOF".toList) ("  hello\n  world\n".toList) (by rfl) (by decide)).2.2.2.2

/-- C9: for the one-character string consisting of a single double quote,
both `strip_quotes` and `to_string_dollar` return the empty string — the
quoted-string check has no minimum-length requirement, so the same
character serves as opening and closing quote. -/
theorem single_quote_char_strips_to_empty :
    strip_quotes (Value.str [dquote]) = Value.str [] ∧
    to_string_dollar (Value.str [dquote]) = Value.str [] :=
  ⟨rfl, rfl⟩

/-- C10: a heredoc token whose delimiter is a single letter fails the
extraction pattern — the pattern needs a delimiter of at least two
characters starting with a letter — so both heredoc rules raise the
fatal `Invalid Heredoc token` error, while a two-character delimiter
matches fine. -/
theorem heredoc_single_char_delimiter_error :
    ∀ (c : Char) (rest : List Char), c.isAlpha = true →
    heredoc_template ('<' :: '<' :: c :: '\n' :: rest)
      = Except.error ("Invalid Heredoc token: ".toList ++ ('<' :: '<' :: c :: '\n' :: rest)) ∧
    heredoc_template_trim ('<' :: '<' :: '-' :: c :: '\n' :: rest)
      = Except.error ("Invalid Heredoc token: ".toList ++ ('<' :: '<' :: '-' :: c :: '\n' :: rest)) ∧
    heredoc_template ("<<EF\nhello\nEF".toList) = Except.ok ("\"hello\"".toList) := by
  intro c rest h
  have hd : isDelimChar '\n' = false := by decide
  have hno : matchDelimBody (c :: '\n' :: rest) = none := by
    simp [matchDelimBody, h, List.takeWhile_cons, hd]
  exact ⟨by simp [heredoc_template, matchHeredoc, hno],
         by simp [heredoc_template_trim, matchHeredocTrim, hno], rfl⟩

/-- C10 witness: the single-letter delimiter `E` triggers the error on a
concrete token. -/
theorem heredoc_single_char_delimiter_error_witness :
    ('E'.isAlpha = true) ∧
    heredoc_template ("<<E\nhi\nE".toList)
      = Except.error ("Invalid Heredoc token: <<E\nhi\nE".toList) ∧
    heredoc_template_trim ("<<-E\nhi\nE".toList)
      = Except.error ("Invalid Heredoc token: <<-E\nhi\nE".toList) := by
  have h := heredoc_single_char_delimiter_error 'E' ("hi\nE".toList) (by decide)
  exact ⟨by decide, h.1, h.2.1⟩

end HCL2
